import Mathlib

/-!
Verification of the `aclstore` package: a persistent ACL store backed by a
key-value store (`store.go`) together with the authorization manager that
derives meta-ACL names and computes the permission-check membership set
(`manager.go`).

Go strings are modelled as `List Char`, ordered lexicographically (Go compares
strings bytewise; UTF-8 preserves code-point order, so the orders agree).
A Go `[]byte` is modelled as `Option (List Char)`: `none` is the nil slice,
`some v` a non-nil slice with contents `v`.
-/

namespace Aclstore

/-- A Go string (username, ACL name, or persisted byte value). -/
abbrev Str := List Char

/-- The separator character: `store.go` uses `separator = "\n"`. -/
def sepChar : Char := '\n'

/-- The separator string `"\n"` used to join usernames in a persisted ACL. -/
def separator : Str := [sepChar]

/-- A Go `[]byte`: `none` models the nil slice, `some v` a non-nil slice. -/
abbrev GoBytes := Option Str

/-- Errors surfaced by the store and manager operations.  `aclNotFound` and
`badUsername` model `ErrACLNotFound` and `ErrBadUsername`; `alreadyExists` is
the internal `errAlreadyExists` sentinel of `CreateACL`; `invalidACLName`
models the `invalid ACL name` error of `Manager.CreateACL`; `badRequest`
models an `httprequest.CodeBadRequest` error. -/
inductive Err where
  | aclNotFound
  | badUsername (u : Str)
  | alreadyExists
  | invalidACLName (n : Str)
  | badRequest
deriving DecidableEq

instance {ε α : Type} [DecidableEq ε] [DecidableEq α] : DecidableEq (Except ε α) := fun
  | .ok a, .ok b =>
    if h : a = b then .isTrue (by rw [h]) else .isFalse (fun c => by cases c; exact h rfl)
  | .ok _, .error _ => .isFalse (fun c => by cases c)
  | .error _, .ok _ => .isFalse (fun c => by cases c)
  | .error e, .error f =>
    if h : e = f then .isTrue (by rw [h]) else .isFalse (fun c => by cases c; exact h rfl)

/-- Modelled from the spec: the key-value backend (`simplekv`, an external
collaborator of this repository) keeps one value per key.  A key is either
absent (`none`) or holds a stored Go byte slice (which may itself be the nil
slice).  The repository's own tests pin this model down: storing a nil slice
keeps the key present (`TestGetEmpty`). -/
def KV : Type := Str → Option GoBytes

/-- The empty backend: no keys stored. -/
def emptyKV : KV := fun _ => none

/-- Store value `v` under key `k` (creating the key if absent). -/
def kvSetKey (kv : KV) (k : Str) (v : GoBytes) : KV :=
  fun k2 => if k2 = k then some v else kv k2

/-- Modelled from the spec: the backend's atomic read-modify-write.  The
callback receives the current value — the Go nil slice when the key is absent
or when the stored slice is nil — and on success the returned slice is stored
under the key; on error nothing is written. -/
def kvUpdate (kv : KV) (k : Str) (f : GoBytes → Except Err GoBytes) : Except Err KV :=
  match f ((kv k).join) with
  | .error e => .error e
  | .ok v => .ok (kvSetKey kv k v)

/-- `validUser` from `store.go`: a username is valid when it is non-empty and
does not contain the separator (`strings.Contains` is substring containment,
modelled as list-infix). -/
def validUser (u : Str) : Bool :=
  decide (0 < u.length) && !(decide (separator <:+: u))

/-- The scan inside `canonicalACL` that detects an out-of-order or duplicate
adjacent pair: `prev` is the previously seen element; the loop sets
`needSort = true` and breaks as soon as `a <= prev`. -/
def needSortGo (prev : Str) : List Str → Bool
  | [] => false
  | a :: rest => if a ≤ prev then true else needSortGo a rest

/-- The `needSort` detection loop of `canonicalACL`, starting from `acl[0]`. -/
def needSort : List Str → Bool
  | [] => false
  | a :: rest => needSortGo a rest

/-- The post-sort deduplication loop of `canonicalACL`: each element is
compared with its immediate predecessor in the sorted slice and dropped when
equal. -/
def dedupAdjGo (prev : Str) : List Str → List Str
  | [] => []
  | b :: rest => if b = prev then dedupAdjGo b rest else b :: dedupAdjGo b rest

/-- Adjacent deduplication over a whole slice:  `acl[0]` is always kept. -/
def dedupAdj : List Str → List Str
  | [] => []
  | a :: rest => a :: dedupAdjGo a rest

/-- `sort.Strings`: sorts ascending lexicographically.  Modelled by insertion
sort; the result is the unique `≤`-sorted permutation, so any comparison sort
yields the same list. -/
def sortStrings (l : List Str) : List Str :=
  List.insertionSort (fun a b => a ≤ b) l

/-- `canonicalACL` from `store.go`: slices of fewer than two members are
returned as-is; an already strictly-ascending slice is returned unchanged
(fast path); otherwise the slice is copied, sorted, and adjacent duplicates
are dropped. -/
def canonicalACL (acl : List Str) : List Str :=
  if acl.length < 2 then acl
  else if needSort acl = false then acl
  else dedupAdj (sortStrings acl)

/-- `aclToValue` from `store.go`: an empty member list encodes as the nil
slice; otherwise the list is canonicalized, every member is validated
(failing with `ErrBadUsername` naming the first invalid member), and the
members are joined with the separator. -/
def aclToValue (acl : List Str) : Except Err GoBytes :=
  if acl.length = 0 then .ok none
  else
    match (canonicalACL acl).find? (fun a => !validUser a) with
    | some a => .error (.badUsername a)
    | none => .ok (some (List.intercalate separator (canonicalACL acl)))

/-- `valueToACL` from `store.go`: a nil or empty value decodes to no members;
otherwise the value is split on the separator. -/
def valueToACL (data : GoBytes) : List Str :=
  match data with
  | none => []
  | some d => if d.length = 0 then [] else d.splitOn sepChar

/-- `kvStore.CreateACL`: atomically, if the key's current value is non-nil
the internal `errAlreadyExists` aborts the update and the operation returns
success with the store untouched; otherwise the encoded initial users are
written. -/
def storeCreateACL (kv : KV) (aclName : Str) (initialUsers : List Str) : Except Err KV :=
  match kvUpdate kv aclName (fun val =>
      if val.isSome then .error .alreadyExists
      else aclToValue initialUsers) with
  | .error .alreadyExists => .ok kv
  | .error e => .error e
  | .ok kv2 => .ok kv2

/-- `kvStore.Add`: fails with `ErrACLNotFound` when the current value is nil;
otherwise decodes the current members, appends the given users, and writes
back the canonical encoding. -/
def storeAdd (kv : KV) (aclName : Str) (users : List Str) : Except Err KV :=
  kvUpdate kv aclName (fun val =>
    match val with
    | none => .error .aclNotFound
    | some v => aclToValue (valueToACL (some v) ++ users))

/-- `kvStore.Remove`: fails with `ErrACLNotFound` when the current value is
nil; otherwise keeps exactly the current members that match none of the given
users and writes back the canonical encoding. -/
def storeRemove (kv : KV) (aclName : Str) (users : List Str) : Except Err KV :=
  kvUpdate kv aclName (fun val =>
    match val with
    | none => .error .aclNotFound
    | some v => aclToValue ((valueToACL (some v)).filter (fun a => decide (a ∉ users))))

/-- `kvStore.Set`: encodes (canonicalizes and validates) the new members
before the update; the update itself fails with `ErrACLNotFound` when the
current value is nil and otherwise replaces it. -/
def storeSet (kv : KV) (aclName : Str) (users : List Str) : Except Err KV :=
  match aclToValue users with
  | .error e => .error e
  | .ok newVal =>
    kvUpdate kv aclName (fun val =>
      if val.isSome then .ok newVal else .error .aclNotFound)

/-- `kvStore.Get`: fails with `ErrACLNotFound` when the key is absent from
the backend; otherwise decodes the stored value. -/
def storeGet (kv : KV) (aclName : Str) : Except Err (List Str) :=
  match kv aclName with
  | none => .error .aclNotFound
  | some v => .ok (valueToACL v)

/-- `AdminACL = "admin"` from `manager.go`. -/
def adminACL : Str := ['a', 'd', 'm', 'i', 'n']

/-- `metaName` from `manager.go`: prepends the reserved `"_"` prefix. -/
def metaName (aclName : Str) : Str := '_' :: aclName

/-- `isMetaName` from `manager.go`: `strings.HasPrefix(aclName, "_")`. -/
def isMetaName (aclName : Str) : Bool := decide (['_'] <+: aclName)

/-- `Manager.CreateACL` from `manager.go`: rejects reserved (meta) names
before touching storage, then creates the named ACL and its meta-ACL. -/
def managerCreateACL (kv : KV) (name : Str) (initialUsers : List Str) : Except Err KV :=
  if isMetaName name = true then .error (.invalidACLName name)
  else
    match storeCreateACL kv name initialUsers with
    | .error e => .error e
    | .ok kv1 =>
      match storeCreateACL kv1 (metaName name) [] with
      | .error e => .error e
      | .ok kv2 => .ok kv2

/-- The membership-set computation of `handler.authorizeRequest` (after
authentication): for the admin ACL or a meta-ACL the check set is the admin
ACL's membership; otherwise it is the membership of the target's meta-ACL
with the admin ACL's membership appended.  The returned list is the one
passed to `Identity.Allow`; errors (including `ErrACLNotFound` from a missing
check ACL) are surfaced to the caller. -/
def authCheckWith (kv : KV) (checkName : Str) : Except Err (List Str) :=
  match storeGet kv checkName with
  | .error e => .error e
  | .ok acl =>
    if checkName = adminACL then .ok acl
    else
      match storeGet kv adminACL with
      | .error e => .error e
      | .ok adminMembers => .ok (acl ++ adminMembers)

/-- The `checkACLName` computation of `authorizeRequest` followed by the
check-set resolution of `authCheckWith`. -/
def authCheckACL (kv : KV) (aclName : Str) : Except Err (List Str) :=
  if aclName = [] then .error .badRequest
  else authCheckWith kv
    (if aclName = adminACL ∨ isMetaName aclName = true then adminACL else metaName aclName)

/-- `handler1.ModifyACL` from `manager.go`: rejects a request carrying both
additions and removals before touching storage, performs the single matching
store operation otherwise, and is a no-op success when both lists are empty. -/
def modifyACL (kv : KV) (name : Str) (add rem : List Str) : Except Err KV :=
  if 0 < add.length ∧ 0 < rem.length then .error .badRequest
  else if 0 < add.length then storeAdd kv name add
  else if 0 < rem.length then storeRemove kv name rem
  else .ok kv

/-- A store mutation, for reasoning about arbitrary operation sequences. -/
inductive Op where
  | create (n : Str) (us : List Str)
  | add (n : Str) (us : List Str)
  | rem (n : Str) (us : List Str)
  | set (n : Str) (us : List Str)

/-- Keep the old state when an operation fails (a failed update writes
nothing). -/
def orKeep (kv : KV) : Except Err KV → KV
  | .ok kv2 => kv2
  | .error _ => kv

/-- Apply one store operation, keeping the old state on failure. -/
def applyOp (kv : KV) : Op → KV
  | .create n us => orKeep kv (storeCreateACL kv n us)
  | .add n us => orKeep kv (storeAdd kv n us)
  | .rem n us => orKeep kv (storeRemove kv n us)
  | .set n us => orKeep kv (storeSet kv n us)

/-- Run a sequence of store operations from the empty backend. -/
def runOps (ops : List Op) : KV := ops.foldl applyOp emptyKV

/-- Reference canonical form, following the spec's words: sort, then
deduplicate — `sorted(dedup(M))`. -/
def sortDedupSpec (l : List Str) : List Str := (sortStrings l).dedup

/-- A persisted value is canonical: it is either the nil slice (empty ACL) or
the separator-join of a non-empty, strictly ascending list of valid
usernames. -/
def goodVal (gv : GoBytes) : Prop :=
  ∀ v, gv = some v →
    ∃ c, c ≠ [] ∧ List.Pairwise (· < ·) c ∧ (∀ u ∈ c, validUser u = true) ∧
      v = List.intercalate separator c

/-- Every value persisted in the backend is canonical. -/
def goodKV (kv : KV) : Prop := ∀ k gv, kv k = some gv → goodVal gv

/-! ### Concrete values used by the evaluation theorems -/

/-- The ACL name `"foo"`. -/
def cFoo : Str := ['f', 'o', 'o']

/-- The username `"a"`. -/
def cA : Str := ['a']

/-- The username `"b"`. -/
def cB : Str := ['b']

/-- The username `"x"`. -/
def cX : Str := ['x']

/-- A backend holding the single ACL `"foo" = {"a"}`. -/
def kvFooA : KV := runOps [Op.create cFoo [cA]]

/-- The backend after creating `"foo" = {"a", "b"}` and then setting its
membership to `{"a", "b", "b"}` (extracted from the successful `Set`). -/
def kvAfterSet : KV :=
  match storeSet (runOps [Op.create cFoo [cB, cA]]) cFoo [cB, cB, cA] with
  | .ok kv => kv
  | .error _ => emptyKV

/-- The backend after `Manager.CreateACL("foo", ["x"])` on an empty store. -/
def kvPair : KV :=
  match managerCreateACL emptyKV cFoo [cX] with
  | .ok kv => kv
  | .error _ => emptyKV

/-- A backend in which ACL `"foo"` was created with one member and then set
to the empty member list. -/
def kvEmptied : KV := runOps [Op.create cFoo [cA], Op.set cFoo []]

/-! ### Canonicalization lemmas -/

theorem mem_dedupAdjGo : ∀ {rest : List Str} {prev : Str},
    List.Pairwise (· ≤ ·) (prev :: rest) →
    ∀ x, x ∈ dedupAdjGo prev rest ↔ (x ∈ rest ∧ x ≠ prev)
  | [], _, _, x => by simp [dedupAdjGo]
  | b :: t, prev, h, x => by
    have hpb : prev ≤ b := (List.pairwise_cons.1 h).1 b (List.mem_cons_self b t)
    have ht : List.Pairwise (· ≤ ·) (b :: t) := (List.pairwise_cons.1 h).2
    have IH := mem_dedupAdjGo ht x
    by_cases hb : b = prev
    · subst hb
      rw [dedupAdjGo, if_pos rfl, IH]
      constructor
      · rintro ⟨hxt, hxb⟩
        exact ⟨List.mem_cons_of_mem _ hxt, hxb⟩
      · rintro ⟨hx, hxb⟩
        rcases List.mem_cons.1 hx with h1 | h1
        · exact absurd h1 hxb
        · exact ⟨h1, hxb⟩
    · rw [dedupAdjGo, if_neg hb, List.mem_cons, IH]
      constructor
      · rintro (rfl | ⟨hxt, _⟩)
        · exact ⟨List.mem_cons_self _ _, hb⟩
        · refine ⟨List.mem_cons_of_mem _ hxt, ?_⟩
          rintro rfl
          exact hb (le_antisymm ((List.pairwise_cons.1 ht).1 x hxt) hpb)
      · rintro ⟨hx, hxp⟩
        rcases List.mem_cons.1 hx with rfl | hxt
        · exact Or.inl rfl
        · by_cases hxb : x = b
          · exact Or.inl hxb
          · exact Or.inr ⟨hxt, hxb⟩

theorem pairwise_lt_dedupAdjGo : ∀ {rest : List Str} {prev : Str},
    List.Pairwise (· ≤ ·) (prev :: rest) →
    List.Pairwise (· < ·) (prev :: dedupAdjGo prev rest)
  | [], _, _ => by simp [dedupAdjGo]
  | b :: t, prev, h => by
    have hpb : prev ≤ b := (List.pairwise_cons.1 h).1 b (List.mem_cons_self b t)
    have ht : List.Pairwise (· ≤ ·) (b :: t) := (List.pairwise_cons.1 h).2
    by_cases hb : b = prev
    · subst hb
      rw [dedupAdjGo, if_pos rfl]
      exact pairwise_lt_dedupAdjGo ht
    · have hlt : prev < b := lt_of_le_of_ne hpb (Ne.symm hb)
      rw [dedupAdjGo, if_neg hb]
      have IH := pairwise_lt_dedupAdjGo ht
      refine List.pairwise_cons.2 ⟨?_, IH⟩
      intro a ha
      rcases List.mem_cons.1 ha with rfl | ha
      · exact hlt
      · have hat : a ∈ t := ((mem_dedupAdjGo ht a).1 ha).1
        exact lt_of_lt_of_le hlt ((List.pairwise_cons.1 ht).1 a hat)

theorem pairwise_lt_dedupAdj {s : List Str} (h : List.Pairwise (· ≤ ·) s) :
    List.Pairwise (· < ·) (dedupAdj s) := by
  cases s with
  | nil => simp [dedupAdj]
  | cons a rest => exact pairwise_lt_dedupAdjGo h

theorem mem_dedupAdj {s : List Str} (h : List.Pairwise (· ≤ ·) s) (x : Str) :
    x ∈ dedupAdj s ↔ x ∈ s := by
  cases s with
  | nil => simp [dedupAdj]
  | cons a rest =>
    rw [dedupAdj, List.mem_cons, List.mem_cons, mem_dedupAdjGo h x]
    constructor
    · rintro (rfl | ⟨h1, _⟩)
      · exact Or.inl rfl
      · exact Or.inr h1
    · rintro (rfl | hx)
      · exact Or.inl rfl
      · by_cases hxa : x = a
        · exact Or.inl hxa
        · exact Or.inr ⟨hx, hxa⟩

theorem needSortGo_eq_false_iff : ∀ {rest : List Str} {prev : Str},
    needSortGo prev rest = false ↔ List.Chain' (· < ·) (prev :: rest)
  | [], prev => by simp [needSortGo]
  | b :: t, prev => by
    rw [List.chain'_cons]
    by_cases h : b ≤ prev
    · rw [needSortGo, if_pos h]
      constructor
      · intro hc; cases hc
      · rintro ⟨hlt, _⟩; exact absurd hlt (not_lt.2 h)
    · rw [needSortGo, if_neg h, needSortGo_eq_false_iff]
      have hlt : prev < b := not_le.1 h
      exact ⟨fun hc => ⟨hlt, hc⟩, fun hc => hc.2⟩

theorem needSort_eq_false_iff (l : List Str) :
    needSort l = false ↔ List.Chain' (· < ·) l := by
  cases l with
  | nil => simp [needSort]
  | cons a rest =>
    rw [needSort, needSortGo_eq_false_iff]

theorem eq_of_pairwise_lt_of_mem_iff : ∀ {l₁ l₂ : List Str},
    List.Pairwise (· < ·) l₁ → List.Pairwise (· < ·) l₂ →
    (∀ x, x ∈ l₁ ↔ x ∈ l₂) → l₁ = l₂
  | [], [], _, _, _ => rfl
  | [], b :: t₂, _, _, hm => absurd ((hm b).2 (List.mem_cons_self b t₂)) (List.not_mem_nil b)
  | a :: t₁, [], _, _, hm => absurd ((hm a).1 (List.mem_cons_self a t₁)) (List.not_mem_nil a)
  | a :: t₁, b :: t₂, h₁, h₂, hm => by
    obtain ⟨ha1, h₁t⟩ := List.pairwise_cons.1 h₁
    obtain ⟨hb2, h₂t⟩ := List.pairwise_cons.1 h₂
    have hab : a = b := by
      rcases List.mem_cons.1 ((hm a).1 (List.mem_cons_self a t₁)) with h | h
      · exact h
      · rcases List.mem_cons.1 ((hm b).2 (List.mem_cons_self b t₂)) with h' | h'
        · exact h'.symm
        · exact absurd (ha1 b h') (lt_asymm (hb2 a h))
    subst hab
    have hmt : ∀ x, x ∈ t₁ ↔ x ∈ t₂ := by
      intro x
      constructor
      · intro hx
        rcases List.mem_cons.1 ((hm x).1 (List.mem_cons_of_mem a hx)) with h | h
        · exact absurd (h ▸ ha1 x hx) (lt_irrefl x)
        · exact h
      · intro hx
        rcases List.mem_cons.1 ((hm x).2 (List.mem_cons_of_mem a hx)) with h | h
        · exact absurd (h ▸ hb2 x hx) (lt_irrefl x)
        · exact h
    rw [eq_of_pairwise_lt_of_mem_iff h₁t h₂t hmt]

theorem sorted_sortStrings (l : List Str) : List.Pairwise (· ≤ ·) (sortStrings l) :=
  List.sorted_insertionSort _ l

theorem mem_sortStrings {l : List Str} (x : Str) : x ∈ sortStrings l ↔ x ∈ l :=
  (List.perm_insertionSort _ l).mem_iff

theorem pairwise_lt_sortDedupSpec (l : List Str) :
    List.Pairwise (· < ·) (sortDedupSpec l) := by
  have hle : List.Pairwise (· ≤ ·) (sortStrings l).dedup :=
    List.Pairwise.sublist (List.dedup_sublist _) (sorted_sortStrings l)
  have hnd : (sortStrings l).dedup.Nodup := List.nodup_dedup _
  exact (List.pairwise_and_iff.2 ⟨hle, hnd⟩).imp fun h => lt_of_le_of_ne h.1 h.2

theorem mem_sortDedupSpec {l : List Str} (x : Str) : x ∈ sortDedupSpec l ↔ x ∈ l := by
  rw [sortDedupSpec, List.mem_dedup, mem_sortStrings]

theorem pairwise_lt_canonicalACL (l : List Str) :
    List.Pairwise (· < ·) (canonicalACL l) := by
  unfold canonicalACL
  split_ifs with h1 h2
  · match l, h1 with
    | [], _ => simp
    | [a], _ => simp
  · exact List.chain'_iff_pairwise.1 ((needSort_eq_false_iff l).1 h2)
  · exact pairwise_lt_dedupAdj (sorted_sortStrings l)

theorem mem_canonicalACL {l : List Str} (x : Str) : x ∈ canonicalACL l ↔ x ∈ l := by
  unfold canonicalACL
  split_ifs with h1 h2
  · exact Iff.rfl
  · exact Iff.rfl
  · rw [mem_dedupAdj (sorted_sortStrings l), mem_sortStrings]

theorem canonicalACL_eq_sortDedupSpec (l : List Str) :
    canonicalACL l = sortDedupSpec l :=
  eq_of_pairwise_lt_of_mem_iff (pairwise_lt_canonicalACL l) (pairwise_lt_sortDedupSpec l)
    fun x => (mem_canonicalACL x).trans (mem_sortDedupSpec x).symm

theorem canonicalACL_of_pairwise_lt {l : List Str} (h : List.Pairwise (· < ·) l) :
    canonicalACL l = l :=
  eq_of_pairwise_lt_of_mem_iff (pairwise_lt_canonicalACL l) h fun x => mem_canonicalACL x

theorem canonicalACL_ne_nil {l : List Str} (h : l ≠ []) : canonicalACL l ≠ [] := by
  cases l with
  | nil => exact absurd rfl h
  | cons a t =>
    intro hc
    have ha : a ∈ canonicalACL (a :: t) := (mem_canonicalACL a).2 (List.mem_cons_self a t)
    rw [hc] at ha
    exact List.not_mem_nil a ha

/-! ### Encoding lemmas -/

theorem singleton_infix_iff (c : Char) (u : Str) : [c] <:+: u ↔ c ∈ u := by
  constructor
  · intro h
    exact List.singleton_sublist.1 h.sublist
  · intro h
    obtain ⟨s, t, rfl⟩ := List.append_of_mem h
    exact ⟨s, t, by simp⟩

theorem validUser_iff {u : Str} : validUser u = true ↔ (u ≠ [] ∧ sepChar ∉ u) := by
  rw [validUser]
  simp [separator, singleton_infix_iff, List.length_pos]

theorem aclToValue_nil : aclToValue [] = .ok none := rfl

theorem aclToValue_ok_cases {acl : List Str} {gv : GoBytes} (h : aclToValue acl = .ok gv) :
    (acl = [] ∧ gv = none) ∨
      (acl ≠ [] ∧ (∀ u ∈ canonicalACL acl, validUser u = true) ∧
        gv = some (List.intercalate separator (canonicalACL acl))) := by
  rw [aclToValue] at h
  split at h
  · left
    cases h
    exact ⟨List.length_eq_zero.1 ‹_›, rfl⟩
  · right
    rename_i hlen
    have hne : acl ≠ [] := fun hnil => hlen (by simp [hnil])
    split at h
    · cases h
    · rename_i hfind
      cases h
      refine ⟨hne, ?_, rfl⟩
      intro u hu
      have := List.find?_eq_none.1 hfind u hu
      simpa using this

theorem aclToValue_ok_of_all_valid {acl : List Str} (hne : acl ≠ [])
    (h : ∀ u ∈ acl, validUser u = true) :
    aclToValue acl = .ok (some (List.intercalate separator (canonicalACL acl))) := by
  rw [aclToValue]
  have hlen : ¬ acl.length = 0 := by simp [List.length_eq_zero, hne]
  rw [if_neg hlen]
  have hfind : (canonicalACL acl).find? (fun a => !validUser a) = none := by
    rw [List.find?_eq_none]
    intro x hx
    simp [h x ((mem_canonicalACL x).1 hx)]
  rw [hfind]

theorem aclToValue_isOk_of_all_valid {acl : List Str}
    (h : ∀ u ∈ acl, validUser u = true) :
    ∃ gv, aclToValue acl = .ok gv := by
  cases hacl : acl with
  | nil => exact ⟨none, aclToValue_nil⟩
  | cons a t =>
    subst hacl
    exact ⟨_, aclToValue_ok_of_all_valid (by simp) h⟩

theorem aclToValue_error_of_bad {acl : List Str} {bad : Str}
    (hmem : bad ∈ acl) (hbad : validUser bad = false) :
    ∃ u, aclToValue acl = .error (.badUsername u) := by
  have hlen : ¬ acl.length = 0 := by
    cases acl with
    | nil => cases hmem
    | cons a t => simp
  rw [aclToValue, if_neg hlen]
  have hbadc : bad ∈ canonicalACL acl := (mem_canonicalACL bad).2 hmem
  rcases hfind : (canonicalACL acl).find? (fun a => !validUser a) with _ | a
  · exact absurd (List.find?_eq_none.1 hfind bad hbadc) (by simp [hbad])
  · exact ⟨a, rfl⟩

theorem aclToValue_not_alreadyExists (acl : List Str) :
    aclToValue acl ≠ .error .alreadyExists := by
  rw [aclToValue]
  split
  · intro h; cases h
  · split
    · intro h; simp at h
    · intro h; cases h

theorem valueToACL_intercalate {c : List Str} (hne : c ≠ [])
    (hv : ∀ u ∈ c, validUser u = true) :
    valueToACL (some (List.intercalate separator c)) = c := by
  have hnotin : ∀ l ∈ c, sepChar ∉ l := fun l hl => (validUser_iff.1 (hv l hl)).2
  have hsplit : (List.intercalate [sepChar] c).splitOn sepChar = c :=
    List.splitOn_intercalate c sepChar hnotin hne
  rw [valueToACL]
  simp only [separator]
  split
  · rename_i hlen
    exfalso
    have hz : List.intercalate [sepChar] c = [] := List.length_eq_zero.1 hlen
    rw [hz] at hsplit
    have : ([] : Str).splitOn sepChar = [[]] := rfl
    rw [this] at hsplit
    have : ([] : Str) ∈ c := hsplit ▸ List.mem_cons_self [] []
    exact (validUser_iff.1 (hv [] this)).1 rfl
  · exact hsplit

theorem valueToACL_aclToValue {acl : List Str} {gv : GoBytes}
    (h : aclToValue acl = .ok gv) :
    valueToACL gv = canonicalACL acl := by
  rcases aclToValue_ok_cases h with ⟨rfl, rfl⟩ | ⟨hne, hv, rfl⟩
  · rfl
  · exact valueToACL_intercalate (canonicalACL_ne_nil hne) hv

theorem goodVal_aclToValue {acl : List Str} {gv : GoBytes}
    (h : aclToValue acl = .ok gv) : goodVal gv := by
  rcases aclToValue_ok_cases h with ⟨_, rfl⟩ | ⟨hne, hv, rfl⟩
  · intro v hv
    cases hv
  · intro v hveq
    cases hveq
    exact ⟨canonicalACL acl, canonicalACL_ne_nil hne, pairwise_lt_canonicalACL acl, hv, rfl⟩

/-! ### Store operation shapes -/

theorem storeCreateACL_of_join_some {kv : KV} {n : Str} {us : List Str} {v : Str}
    (h : (kv n).join = some v) :
    storeCreateACL kv n us = .ok kv := by
  unfold storeCreateACL kvUpdate
  rw [h]
  exact rfl

theorem storeCreateACL_of_join_none_ok {kv : KV} {n : Str} {us : List Str} {gv : GoBytes}
    (h : (kv n).join = none) (hv : aclToValue us = .ok gv) :
    storeCreateACL kv n us = .ok (kvSetKey kv n gv) := by
  unfold storeCreateACL kvUpdate
  rw [h]
  simp only [Option.isSome_none, Bool.false_eq_true, if_false, hv]

theorem storeCreateACL_of_join_none_err {kv : KV} {n : Str} {us : List Str} {e : Err}
    (h : (kv n).join = none) (hv : aclToValue us = .error e) :
    storeCreateACL kv n us = .error e := by
  have hne := aclToValue_not_alreadyExists us
  rw [hv] at hne
  unfold storeCreateACL kvUpdate
  rw [h]
  simp only [Option.isSome_none, Bool.false_eq_true, if_false, hv]
  cases e with
  | alreadyExists => exact absurd rfl hne
  | aclNotFound => rfl
  | badUsername u => rfl
  | invalidACLName n2 => rfl
  | badRequest => rfl

theorem storeAdd_of_join_none {kv : KV} {n : Str} {us : List Str}
    (h : (kv n).join = none) :
    storeAdd kv n us = .error .aclNotFound := by
  unfold storeAdd kvUpdate
  rw [h]

theorem storeAdd_of_join_some {kv : KV} {n : Str} {us : List Str} {v : Str}
    (h : (kv n).join = some v) :
    storeAdd kv n us =
      match aclToValue (valueToACL (some v) ++ us) with
      | .error e => .error e
      | .ok gv => .ok (kvSetKey kv n gv) := by
  unfold storeAdd kvUpdate
  rw [h]

theorem storeRemove_of_join_none {kv : KV} {n : Str} {us : List Str}
    (h : (kv n).join = none) :
    storeRemove kv n us = .error .aclNotFound := by
  unfold storeRemove kvUpdate
  rw [h]

theorem storeRemove_of_join_some {kv : KV} {n : Str} {us : List Str} {v : Str}
    (h : (kv n).join = some v) :
    storeRemove kv n us =
      match aclToValue ((valueToACL (some v)).filter (fun a => decide (a ∉ us))) with
      | .error e => .error e
      | .ok gv => .ok (kvSetKey kv n gv) := by
  unfold storeRemove kvUpdate
  rw [h]

theorem storeSet_err {kv : KV} {n : Str} {us : List Str} {e : Err}
    (hv : aclToValue us = .error e) :
    storeSet kv n us = .error e := by
  unfold storeSet
  rw [hv]

theorem storeSet_ok {kv kv' : KV} {n : Str} {us : List Str}
    (h : storeSet kv n us = .ok kv') :
    ∃ gv, aclToValue us = .ok gv ∧ kv' = kvSetKey kv n gv := by
  unfold storeSet at h
  split at h
  · cases h
  · rename_i newVal heq
    unfold kvUpdate at h
    split at h
    · cases h
    · rename_i v heq2
      cases h
      refine ⟨v, ?_, rfl⟩
      have heq3 : (if ((kv n).join).isSome = true then Except.ok newVal
          else Except.error Err.aclNotFound) = Except.ok v := heq2
      split at heq3
      · cases heq3
        exact heq
      · cases heq3

theorem kvSetKey_self (kv : KV) (n : Str) (gv : GoBytes) :
    kvSetKey kv n gv n = some gv := by
  simp [kvSetKey]

theorem kvSetKey_other {kv : KV} {n k : Str} (h : k ≠ n) (gv : GoBytes) :
    kvSetKey kv n gv k = kv k := by
  simp [kvSetKey, h]

theorem storeGet_of_key {kv : KV} {n : Str} {gv : GoBytes} (h : kv n = some gv) :
    storeGet kv n = .ok (valueToACL gv) := by
  unfold storeGet
  rw [h]

/-! ### Canonical-store invariant -/

theorem goodKV_emptyKV : goodKV emptyKV := by
  intro k gv h
  simp [emptyKV] at h

theorem goodKV_kvSetKey {kv : KV} {k : Str} {v : GoBytes}
    (hkv : goodKV kv) (hv : goodVal v) : goodKV (kvSetKey kv k v) := by
  intro k2 gv h
  simp only [kvSetKey] at h
  split at h
  · cases h
    exact hv
  · exact hkv k2 gv h

theorem goodKV_kvUpdate {kv kv' : KV} {k : Str} {f : GoBytes → Except Err GoBytes}
    (hkv : goodKV kv) (hf : ∀ old gv, f old = .ok gv → goodVal gv)
    (h : kvUpdate kv k f = .ok kv') : goodKV kv' := by
  unfold kvUpdate at h
  split at h
  · cases h
  · rename_i v heq
    cases h
    exact goodKV_kvSetKey hkv (hf _ v heq)

theorem goodKV_storeCreateACL {kv kv' : KV} {n : Str} {us : List Str}
    (hkv : goodKV kv) (h : storeCreateACL kv n us = .ok kv') : goodKV kv' := by
  unfold storeCreateACL at h
  split at h
  · cases h
    exact hkv
  · cases h
  · rename_i kv2 heq
    cases h
    refine goodKV_kvUpdate hkv ?_ heq
    intro old gv hok
    split at hok
    · cases hok
    · exact goodVal_aclToValue hok

theorem goodKV_storeAdd {kv kv' : KV} {n : Str} {us : List Str}
    (hkv : goodKV kv) (h : storeAdd kv n us = .ok kv') : goodKV kv' := by
  unfold storeAdd at h
  refine goodKV_kvUpdate hkv ?_ h
  intro old gv hok
  split at hok
  · cases hok
  · exact goodVal_aclToValue hok

theorem goodKV_storeRemove {kv kv' : KV} {n : Str} {us : List Str}
    (hkv : goodKV kv) (h : storeRemove kv n us = .ok kv') : goodKV kv' := by
  unfold storeRemove at h
  refine goodKV_kvUpdate hkv ?_ h
  intro old gv hok
  split at hok
  · cases hok
  · exact goodVal_aclToValue hok

theorem goodKV_storeSet {kv kv' : KV} {n : Str} {us : List Str}
    (hkv : goodKV kv) (h : storeSet kv n us = .ok kv') : goodKV kv' := by
  obtain ⟨gv, hv, rfl⟩ := storeSet_ok h
  exact goodKV_kvSetKey hkv (goodVal_aclToValue hv)

theorem goodKV_orKeep {kv : KV} (hkv : goodKV kv) {res : Except Err KV}
    (hres : ∀ kv2, res = .ok kv2 → goodKV kv2) : goodKV (orKeep kv res) := by
  cases res with
  | ok kv2 => exact hres kv2 rfl
  | error e => exact hkv

theorem goodKV_applyOp {kv : KV} (hkv : goodKV kv) (op : Op) :
    goodKV (applyOp kv op) := by
  cases op with
  | create n us => exact goodKV_orKeep hkv fun kv2 h => goodKV_storeCreateACL hkv h
  | add n us => exact goodKV_orKeep hkv fun kv2 h => goodKV_storeAdd hkv h
  | rem n us => exact goodKV_orKeep hkv fun kv2 h => goodKV_storeRemove hkv h
  | set n us => exact goodKV_orKeep hkv fun kv2 h => goodKV_storeSet hkv h

theorem goodKV_foldl : ∀ (ops : List Op) (kv : KV), goodKV kv →
    goodKV (List.foldl applyOp kv ops)
  | [], _, h => h
  | op :: rest, kv, h => goodKV_foldl rest (applyOp kv op) (goodKV_applyOp h op)

theorem goodKV_runOps (ops : List Op) : goodKV (runOps ops) :=
  goodKV_foldl ops emptyKV goodKV_emptyKV

/-! ### Manager lemmas -/

theorem metaName_ne_adminACL (n : Str) : metaName n ≠ adminACL := by
  intro h
  rw [metaName, adminACL] at h
  injection h with h1 _
  exact absurd h1 (by decide)

theorem metaName_ne_self (n : Str) : metaName n ≠ n := by
  intro h
  have := congrArg List.length h
  simp [metaName] at this

theorem authCheckWith_adminACL (kv : KV) :
    authCheckWith kv adminACL = storeGet kv adminACL := by
  unfold authCheckWith
  cases hres : storeGet kv adminACL with
  | error e => rfl
  | ok acl => simp

theorem authCheckWith_meta (kv : KV) (n : Str) :
    authCheckWith kv (metaName n) =
      match storeGet kv (metaName n) with
      | .error e => .error e
      | .ok m =>
        match storeGet kv adminACL with
        | .error e => .error e
        | .ok a => .ok (m ++ a) := by
  unfold authCheckWith
  cases hres : storeGet kv (metaName n) with
  | error e => rfl
  | ok m => simp only [if_neg (metaName_ne_adminACL n)]

/-! ### Claim theorems -/

/-- C1: for every request naming a (non-empty) ACL `n` after successful
authentication, the membership set handed to `Identity.Allow` is: exactly the
admin ACL's members when `n` is `"admin"` or carries the `"_"` meta-prefix,
and otherwise the members of `"_" + n` with the admin ACL's members appended;
a missing check ACL surfaces `ACLNotFound` to the caller instead of acting as
an empty set. -/
theorem authorizeRequest_check_set (kv : KV) (n : Str) (hn : n ≠ []) :
    ((n = adminACL ∨ isMetaName n = true) → authCheckACL kv n = storeGet kv adminACL) ∧
    (¬(n = adminACL ∨ isMetaName n = true) →
      authCheckACL kv n =
        match storeGet kv (metaName n) with
        | .error e => .error e
        | .ok m =>
          match storeGet kv adminACL with
          | .error e => .error e
          | .ok a => .ok (m ++ a)) := by
  constructor
  · intro hadm
    unfold authCheckACL
    rw [if_neg hn, if_pos hadm]
    exact authCheckWith_adminACL kv
  · intro hoth
    unfold authCheckACL
    rw [if_neg hn, if_neg hoth]
    exact authCheckWith_meta kv n

/-- Witness for C1 at the concrete non-meta name `"foo"`. -/
theorem authorizeRequest_check_set_witness :
    authCheckACL kvFooA cFoo =
      match storeGet kvFooA (metaName cFoo) with
      | .error e => .error e
      | .ok m =>
        match storeGet kvFooA adminACL with
        | .error e => .error e
        | .ok a => .ok (m ++ a) :=
  (authorizeRequest_check_set kvFooA cFoo (by decide)).2 (by decide)

/-- C2: from the empty backend, every sequence of store operations leaves
every persisted value in canonical form (strictly ascending, duplicate-free,
valid members), and `Get` after a successful `Set(n, M)` returns the
sort-then-dedup canonical form of `M`. -/
theorem store_canonical_invariant_roundtrip (ops : List Op) (n : Str)
    (M : List Str) (kv' : KV) :
    goodKV (runOps ops) ∧
      (storeSet (runOps ops) n M = .ok kv' → storeGet kv' n = .ok (sortDedupSpec M)) := by
  refine ⟨goodKV_runOps ops, ?_⟩
  intro h
  obtain ⟨gv, hv, rfl⟩ := storeSet_ok h
  rw [storeGet_of_key (kvSetKey_self _ n gv), valueToACL_aclToValue hv,
    canonicalACL_eq_sortDedupSpec]

/-- Witness for C2: set `"foo"` to `["b","b","a"]` and read back
`["a","b"]`. -/
theorem store_canonical_invariant_roundtrip_witness :
    storeGet kvAfterSet cFoo = .ok (sortDedupSpec [cB, cB, cA]) :=
  (store_canonical_invariant_roundtrip [Op.create cFoo [cB, cA]] cFoo
    [cB, cB, cA] kvAfterSet).2 rfl

/-- C3 (failing evaluation): after `CreateACL("foo", [])` the ACL exists with
empty membership, yet a second `CreateACL("foo", ["x"])` overwrites it — the
stored membership becomes `["x"]` instead of staying at the canonical form of
the first call's list. -/
theorem createACL_empty_then_create_overwrites :
    storeGet (runOps [Op.create cFoo []]) cFoo = .ok [] ∧
    storeGet (runOps [Op.create cFoo [], Op.create cFoo [cX]]) cFoo = .ok [cX] :=
  ⟨rfl, rfl⟩

/-- C4 (failing evaluation): after `Set("foo", [])` on an existing ACL, `Get`
still succeeds with an empty set, but `Add`, `Set` and `Remove` all fail with
`ACLNotFound` because the nil-encoded empty value is indistinguishable from
an absent key inside the update callback. -/
theorem empty_acl_mutations_fail :
    storeGet kvEmptied cFoo = .ok [] ∧
    storeAdd kvEmptied cFoo [cB] = .error .aclNotFound ∧
    storeSet kvEmptied cFoo [cB] = .error .aclNotFound ∧
    storeRemove kvEmptied cFoo [cB] = .error .aclNotFound :=
  ⟨rfl, rfl, rfl, rfl⟩

/-- C5: the linear scan of `canonicalACL` detects exactly the strictly
ascending duplicate-free inputs; on those the input is returned unchanged,
and in every case the result equals the reference sort-then-dedup form. -/
theorem canonicalACL_refines_sort_dedup (l : List Str) :
    (needSort l = false ↔ List.Chain' (· < ·) l) ∧
    (List.Chain' (· < ·) l → canonicalACL l = l) ∧
    canonicalACL l = sortDedupSpec l :=
  ⟨needSort_eq_false_iff l,
   fun h => canonicalACL_of_pairwise_lt (List.chain'_iff_pairwise.1 h),
   canonicalACL_eq_sortDedupSpec l⟩

/-- Witness for C5 at the already-sorted input `["a","b"]`. -/
theorem canonicalACL_refines_sort_dedup_witness :
    canonicalACL [cA, cB] = [cA, cB] :=
  (canonicalACL_refines_sort_dedup [cA, cB]).2.1
    (by rw [List.chain'_cons]; exact ⟨by decide, List.chain'_singleton cB⟩)

/-- C6 (counterexample): `CreateACL` on an ACL that already exists returns
success — not a `BadUsername` failure — even when the supplied user list
contains the invalid empty username. -/
theorem createACL_existing_ignores_invalid_users :
    storeCreateACL kvFooA cFoo [[]] = .ok kvFooA := rfl

/-- C6 (amended): with an invalid username among `users`: `Set` always fails
with `BadUsername`; `Add` fails with `BadUsername` when the ACL exists with a
non-nil value and with `ACLNotFound` otherwise; `CreateACL` fails with
`BadUsername` when no non-nil value exists and succeeds as a no-op (leaving
the store untouched) when one does.  Failed updates never write. -/
theorem validation_gate_amended (kv : KV) (n : Str) (users : List Str) (bad : Str)
    (hmem : bad ∈ users) (hbad : validUser bad = false) :
    (∃ u, storeSet kv n users = .error (.badUsername u)) ∧
    (∀ v, (kv n).join = some v → ∃ u, storeAdd kv n users = .error (.badUsername u)) ∧
    ((kv n).join = none → storeAdd kv n users = .error .aclNotFound) ∧
    ((kv n).join = none → ∃ u, storeCreateACL kv n users = .error (.badUsername u)) ∧
    (∀ v, (kv n).join = some v → storeCreateACL kv n users = .ok kv) := by
  obtain ⟨u0, hu0⟩ := aclToValue_error_of_bad hmem hbad
  refine ⟨⟨u0, storeSet_err hu0⟩, ?_, ?_, ?_, ?_⟩
  · intro v hv
    obtain ⟨u1, hu1⟩ :=
      aclToValue_error_of_bad (List.mem_append_right (valueToACL (some v)) hmem) hbad
    refine ⟨u1, ?_⟩
    rw [storeAdd_of_join_some hv, hu1]
  · intro hnone
    exact storeAdd_of_join_none hnone
  · intro hnone
    exact ⟨u0, storeCreateACL_of_join_none_err hnone hu0⟩
  · intro v hv
    exact storeCreateACL_of_join_some hv

/-- Witness for the amended C6: setting `"foo"` to a list containing the
empty username fails with `BadUsername`. -/
theorem validation_gate_amended_witness :
    ∃ u, storeSet kvFooA cFoo [cB, []] = .error (.badUsername u) :=
  (validation_gate_amended kvFooA cFoo [cB, []] [] (by decide) (by decide)).1

/-- C7: `Manager.CreateACL` on a name carrying the reserved `"_"` prefix
fails with the invalid-ACL-name error before any storage operation. -/
theorem managerCreateACL_rejects_meta (kv : KV) (n : Str) (us : List Str)
    (h : isMetaName n = true) :
    managerCreateACL kv n us = .error (.invalidACLName n) := by
  unfold managerCreateACL
  rw [if_pos h]

/-- Witness for C7 at the concrete reserved name `"_foo"`. -/
theorem managerCreateACL_rejects_meta_witness :
    managerCreateACL emptyKV (metaName cFoo) [cX] =
      .error (.invalidACLName (metaName cFoo)) :=
  managerCreateACL_rejects_meta emptyKV (metaName cFoo) [cX] (by decide)

/-- C8: a successful `Manager.CreateACL(X, users)`, starting from a state in
which neither `X` nor `"_" + X` exists, leaves both ACLs readable: `Get(X)`
returns the canonical form of `users` (the empty sequence when `users` is
empty, not a not-found error) and `Get("_" + X)` returns empty membership. -/
theorem managerCreateACL_creates_pair (kv kv' : KV) (n : Str) (us : List Str)
    (hmeta : isMetaName n = false) (hn : kv n = none) (hmn : kv (metaName n) = none)
    (h : managerCreateACL kv n us = .ok kv') :
    storeGet kv' n = .ok (sortDedupSpec us) ∧ storeGet kv' (metaName n) = .ok [] := by
  unfold managerCreateACL at h
  rw [if_neg (by simp [hmeta])] at h
  have hjn : (kv n).join = none := by rw [hn]; rfl
  split at h
  · cases h
  · rename_i kv1 hc1
    split at h
    · cases h
    · rename_i kv2 hc2
      cases h
      cases hv : aclToValue us with
      | error e =>
        rw [storeCreateACL_of_join_none_err hjn hv] at hc1
        cases hc1
      | ok gv =>
        rw [storeCreateACL_of_join_none_ok hjn hv] at hc1
        cases hc1
        have hjm : ((kvSetKey kv n gv) (metaName n)).join = none := by
          rw [kvSetKey_other (metaName_ne_self n) gv, hmn]
          rfl
        rw [storeCreateACL_of_join_none_ok hjm aclToValue_nil] at hc2
        cases hc2
        constructor
        · have hk : (kvSetKey (kvSetKey kv n gv) (metaName n) none) n = some gv := by
            rw [kvSetKey_other (Ne.symm (metaName_ne_self n)) none, kvSetKey_self]
          rw [storeGet_of_key hk, valueToACL_aclToValue hv, canonicalACL_eq_sortDedupSpec]
        · have hk : (kvSetKey (kvSetKey kv n gv) (metaName n) none) (metaName n) = some none :=
            kvSetKey_self _ _ _
          rw [storeGet_of_key hk]
          rfl

/-- Witness for C8: create `"foo"` with `["x"]` on the empty store; both
`"foo"` and `"_foo"` are readable afterwards. -/
theorem managerCreateACL_creates_pair_witness :
    storeGet kvPair cFoo = .ok (sortDedupSpec [cX]) ∧
      storeGet kvPair (metaName cFoo) = .ok [] :=
  managerCreateACL_creates_pair emptyKV kvPair cFoo [cX] (by decide) rfl rfl rfl

/-- C9: `ModifyACL` rejects a request with both additions and removals with a
bad-request error regardless of the stored state; with exactly one non-empty
list it performs the corresponding store operation; with neither it succeeds
without touching storage. -/
theorem modifyACL_exclusive (kv : KV) (n : Str) (add rem : List Str) :
    (add ≠ [] → rem ≠ [] → modifyACL kv n add rem = .error .badRequest) ∧
    (add ≠ [] → rem = [] → modifyACL kv n add rem = storeAdd kv n add) ∧
    (add = [] → rem ≠ [] → modifyACL kv n add rem = storeRemove kv n rem) ∧
    (add = [] → rem = [] → modifyACL kv n add rem = .ok kv) := by
  unfold modifyACL
  refine ⟨fun h1 h2 => ?_, fun h1 h2 => ?_, fun h1 h2 => ?_, fun h1 h2 => ?_⟩
  · rw [if_pos ⟨List.length_pos.2 h1, List.length_pos.2 h2⟩]
  · rw [if_neg (by simp [h2]), if_pos (List.length_pos.2 h1)]
  · subst h1
    rw [if_neg (by simp), if_neg (by simp), if_pos (List.length_pos.2 h2)]
  · subst h1
    subst h2
    rw [if_neg (by simp), if_neg (by simp), if_neg (by simp)]

/-- Witness for C9: supplying both an addition and a removal is rejected. -/
theorem modifyACL_exclusive_witness :
    modifyACL emptyKV cFoo [cA] [cB] = .error .badRequest :=
  (modifyACL_exclusive emptyKV cFoo [cA] [cB]).1 (by decide) (by decide)

/-- C10: `Remove` on an ACL present in the backend with a canonical stored
value never fails with `BadUsername`, whatever the removal list contains —
invalid identifiers simply match no stored member. -/
theorem remove_never_badUsername (kv : KV) (n : Str) (users : List Str)
    (gv : GoBytes) (hk : kv n = some gv) (hgood : goodVal gv) :
    ∀ u, storeRemove kv n users ≠ .error (.badUsername u) := by
  intro u
  cases gv with
  | none =>
    have hj : (kv n).join = none := by rw [hk]; rfl
    rw [storeRemove_of_join_none hj]
    simp
  | some v =>
    have hj : (kv n).join = some v := by rw [hk]; rfl
    obtain ⟨c, hcne, _, hcval, rfl⟩ := hgood v rfl
    rw [storeRemove_of_join_some hj, valueToACL_intercalate hcne hcval]
    have hfv : ∀ x ∈ c.filter (fun a => decide (a ∉ users)), validUser x = true :=
      fun x hx => hcval x (List.mem_of_mem_filter hx)
    obtain ⟨gv2, hgv2⟩ := aclToValue_isOk_of_all_valid hfv
    rw [hgv2]
    simp

/-- Witness for C10: removing the invalid empty username from `"foo"` does
not produce a `BadUsername` error. -/
theorem remove_never_badUsername_witness :
    storeRemove kvFooA cFoo [[]] ≠ .error (.badUsername cA) :=
  remove_never_badUsername kvFooA cFoo [[]] (some cA) rfl
    (fun v hv => by
      cases hv
      exact ⟨[cA], by decide, by decide, by decide, rfl⟩) cA

end Aclstore
